import Mathlib

set_option maxRecDepth 100000

/-!
Verification of the SM4 / SM4-GCM cipher core of this repository against its
specification.  The C++ sources are shallowly embedded: 32-bit machine words
become `Nat` with explicit reduction `% 4294967296` wherever the C code
truncates, byte buffers become `List Nat` whose elements are below 256, and
each C function becomes an executable Lean definition with the same structure.

Sources embedded here:
  * `src/project1/SM4Ttable.cpp` and `src/unnamed/part_002` (identical files):
    the scalar reference implementation (`rotate_left`, `substitute_bytes`,
    `linear_transform`, `nonlinear_transform`, `generate_round_keys`,
    `sm4_block_encrypt`, `sm4_block_decrypt`).
  * `src/unnamed/part_001`: the fused-table / AVX2 tier (`SM4Core`,
    `SM4SIMD`, `ParallelExecutor`).
  * `src/project1/sm4_gcm.cpp`: the `SM4` class (little-endian word loads,
    shift-based linear transforms) and the `SM4_GCM` class (counter mode,
    GHASH-style authenticator, tag generation and verification).
-/

/-- Constant S-box table shared by `src/project1/SM4Ttable.cpp` (`SM4_SBOX`),
`src/unnamed/part_002` (`SM4_SBOX`), `src/project1/sm4_gcm.cpp` (`SM4_SBOX`)
and `src/unnamed/part_001` (`SM4Core::SBOX`); the four files declare the same
256-entry standard table (part_001 spells out the first sixteen entries and
elides the rest with a comment saying it is the standard table). -/
def SM4_SBOX : List Nat := [
  0xd6,0x90,0xe9,0xfe,0xcc,0xe1,0x3d,0xb7,0x16,0xb6,0x14,0xc2,0x28,0xfb,0x2c,0x05,
  0x2b,0x67,0x9a,0x76,0x2a,0xbe,0x04,0xc3,0xaa,0x44,0x13,0x26,0x49,0x86,0x06,0x99,
  0x9c,0x42,0x50,0xf4,0x91,0xef,0x98,0x7a,0x33,0x54,0x0b,0x43,0xed,0xcf,0xac,0x62,
  0xe4,0xb3,0x1c,0xa9,0xc9,0x08,0xe8,0x95,0x80,0xdf,0x94,0xfa,0x75,0x8f,0x3f,0xa6,
  0x47,0x07,0xa7,0xfc,0xf3,0x73,0x17,0xba,0x83,0x59,0x3c,0x19,0xe6,0x85,0x4f,0xa8,
  0x68,0x6b,0x81,0xb2,0x71,0x64,0xda,0x8b,0xf8,0xeb,0x0f,0x4b,0x70,0x56,0x9d,0x35,
  0x1e,0x24,0x0e,0x5e,0x63,0x58,0xd1,0xa2,0x25,0x22,0x7c,0x3b,0x01,0x21,0x78,0x87,
  0xd4,0x00,0x46,0x57,0x9f,0xd3,0x27,0x52,0x4c,0x36,0x02,0xe7,0xa0,0xc4,0xc8,0x9e,
  0xea,0xbf,0x8a,0xd2,0x40,0xc7,0x38,0xb5,0xa3,0xf7,0xf2,0xce,0xf9,0x61,0x15,0xa1,
  0xe0,0xae,0x5d,0xa4,0x9b,0x34,0x1a,0x55,0xad,0x93,0x32,0x30,0xf5,0x8c,0xb1,0xe3,
  0x1d,0xf6,0xe2,0x2e,0x82,0x66,0xca,0x60,0xc0,0x29,0x23,0xab,0x0d,0x53,0x4e,0x6f,
  0xd5,0xdb,0x37,0x45,0xde,0xfd,0x8e,0x2f,0x03,0xff,0x6a,0x72,0x6d,0x6c,0x5b,0x51,
  0x8d,0x1b,0xaf,0x92,0xbb,0xdd,0xbc,0x7f,0x11,0xd9,0x5c,0x41,0x1f,0x10,0x5a,0xd8,
  0x0a,0xc1,0x31,0x88,0xa5,0xcd,0x7b,0xbd,0x2d,0x74,0xd0,0x12,0xb8,0xe5,0xb4,0xb0,
  0x89,0x69,0x97,0x4a,0x0c,0x96,0x77,0x7e,0x65,0xb9,0xf1,0x09,0xc5,0x6e,0xc6,0x84,
  0x18,0xf0,0x7d,0xec,0x3a,0xdc,0x4d,0x20,0x79,0xee,0x5f,0x3e,0xd7,0xcb,0x39,0x48]

/-- Constant CK round-constant table, identical in all four cipher sources. -/
def SM4_CK : List Nat := [
  0x00070E15,0x1C232A31,0x383F464D,0x545B6269,
  0x70777E85,0x8C939AA1,0xA8AFB6BD,0xC4CBD2D9,
  0xE0E7EEF5,0xFC030A11,0x181F262D,0x343B4249,
  0x50575E65,0x6C737A81,0x888F969D,0xA4ABB2B9,
  0xC0C7CED5,0xDCE3EAF1,0xF8FF060D,0x141B2229,
  0x30373E45,0x4C535A61,0x686F767D,0x848B9299,
  0xA0A7AEB5,0xBCC3CAD1,0xD8DFE6ED,0xF4FB0209,
  0x10171E25,0x2C333A41,0x484F565D,0x646B7279]

/-- Constant FK system-parameter table, identical in all four cipher sources. -/
def SM4_FK : List Nat := [0xA3B1BAC6, 0x56AA3350, 0x677D9197, 0xB27022DC]

/-- Lookup into the S-box table (C array indexing `SM4_SBOX[i]`; every index
fed to it by the embedded code is masked to eight bits first). -/
def sboxAt (i : Nat) : Nat := SM4_SBOX.getD i 0

/-- Circular left rotation of a 32-bit word, `rotate_left` of part_002 /
SM4Ttable.cpp and `RotateLeft` of part_001:
`(value << shift) | (value >> (32 - shift))` on `uint32_t`, so the left shift
is truncated modulo 2^32. -/
def rotate_left (v sh : Nat) : Nat := ((v <<< sh) % 4294967296) ||| (v >>> (32 - sh))

/-- Byte-wise S-box substitution on a 32-bit word: `substitute_bytes` of
part_002 / SM4Ttable.cpp, `SboxSubstitution` of part_001, and the value-level
meaning of `SM4::sbox` of sm4_gcm.cpp (which rewrites each of the four bytes
of the word in place through the table). -/
def substitute_bytes (x : Nat) : Nat :=
  (sboxAt ((x >>> 24) &&& 255) <<< 24) ||| (sboxAt ((x >>> 16) &&& 255) <<< 16) |||
    (sboxAt ((x >>> 8) &&& 255) <<< 8) ||| sboxAt (x &&& 255)

/-- Round-function diffusion transform `linear_transform` of part_002 /
SM4Ttable.cpp (`LinearTransform` in part_001), built from circular rotations
by 2, 10, 18 and 24. -/
def linear_transform (x : Nat) : Nat :=
  x ^^^ rotate_left x 2 ^^^ rotate_left x 10 ^^^ rotate_left x 18 ^^^ rotate_left x 24

/-- Composed round transform `nonlinear_transform` of part_002 /
SM4Ttable.cpp (`CompositeTransform` in part_001): substitution followed by
diffusion. -/
def nonlinear_transform (x : Nat) : Nat := linear_transform (substitute_bytes x)

/-- Key-schedule linear transform of part_002 / SM4Ttable.cpp, the inline
statement `temp ^= rotate_left(temp, 13) ^ rotate_left(temp, 23)` in
`generate_round_keys`. -/
def key_schedule_transform (t : Nat) : Nat :=
  t ^^^ (rotate_left t 13 ^^^ rotate_left t 23)

/-- Four 32-bit working registers, the sliding window of the SM4 state and
key-schedule recurrences. -/
abbrev Quad := Nat × Nat × Nat × Nat

/-- Big-endian packing of four bytes into a 32-bit word, the expression
`(b0 << 24) | (b1 << 16) | (b2 << 8) | b3` used by the loaders of part_001,
part_002 and SM4Ttable.cpp. -/
def word_pack (b0 b1 b2 b3 : Nat) : Nat :=
  (b0 <<< 24) ||| (b1 <<< 16) ||| (b2 <<< 8) ||| b3

/-- Big-endian word load from a byte buffer at offset `o`. -/
def beLoad (bs : List Nat) (o : Nat) : Nat :=
  word_pack (bs.getD o 0) (bs.getD (o + 1) 0) (bs.getD (o + 2) 0) (bs.getD (o + 3) 0)

/-- Big-endian word store, the four `static_cast<uint8_t>(word >> k)` writes
of part_001 / part_002 / SM4Ttable.cpp. -/
def beStore (w : Nat) : List Nat :=
  [(w >>> 24) % 256, (w >>> 16) % 256, (w >>> 8) % 256, w % 256]

/-- Little-endian word load: `memcpy` from a byte buffer into a `uint32_t`
on the little-endian host assumed throughout `sm4_gcm.cpp`. -/
def leLoad (bs : List Nat) (o : Nat) : Nat :=
  word_pack (bs.getD (o + 3) 0) (bs.getD (o + 2) 0) (bs.getD (o + 1) 0) (bs.getD o 0)

/-- Little-endian word store (`memcpy` from a `uint32_t` back to bytes). -/
def leStore (w : Nat) : List Nat :=
  [w % 256, (w >>> 8) % 256, (w >>> 16) % 256, (w >>> 24) % 256]

/-- Key-schedule recurrence shared verbatim by `generate_round_keys`
(part_002 / SM4Ttable.cpp), `SM4Core::KeyExpansion` (part_001) and
`SM4::keyExpansion` (sm4_gcm.cpp): for each round constant,
`t = k1 ^ k2 ^ k3 ^ ck` is passed through the per-source transform `tk`,
the new register is `k0 ^ tk t`, and it is also the emitted round key.
The parameter `tk` is the per-source composition applied to `t`. -/
def keySchedRec (tk : Nat → Nat) : Quad → List Nat → List Nat
  | _, [] => []
  | (k0, k1, k2, k3), ck :: rest =>
    let k4 := k0 ^^^ tk (k1 ^^^ k2 ^^^ k3 ^^^ ck)
    k4 :: keySchedRec tk (k1, k2, k3, k4) rest

/-- One SM4 round, shared verbatim by all engine tiers: the new register is
`x0 ^ f (x1 ^ x2 ^ x3 ^ rk)` and the window slides.  `f` is the per-tier
round transform. -/
def sm4Round (f : Nat → Nat) (s : Quad) (rk : Nat) : Quad :=
  match s with
  | (a, b, c, d) => (b, c, d, a ^^^ f (b ^^^ c ^^^ d ^^^ rk))

/-- The 32-round loop, folding `sm4Round` over the round-key sequence. -/
def sm4Rounds (f : Nat → Nat) (rks : List Nat) (s : Quad) : Quad :=
  rks.foldl (sm4Round f) s

/-- Final word reversal of the SM4 state (the ciphertext words are the last
four registers read backwards). -/
def rev4 : Quad → Quad
  | (a, b, c, d) => (d, c, b, a)

/-- Big-endian state load of a 16-byte block (part_001, part_002,
SM4Ttable.cpp). -/
def loadStateBE (bs : List Nat) : Quad :=
  (beLoad bs 0, beLoad bs 4, beLoad bs 8, beLoad bs 12)

/-- Big-endian state store of a 16-byte block. -/
def storeStateBE : Quad → List Nat
  | (a, b, c, d) => beStore a ++ beStore b ++ beStore c ++ beStore d

/-- Round-key derivation `generate_round_keys` of part_002 / SM4Ttable.cpp:
big-endian key words xored with FK seed the recurrence, and the per-round
transform is S-box substitution followed by the rotation-based key-schedule
transform. -/
def generate_round_keys (key : List Nat) : List Nat :=
  keySchedRec (fun t => key_schedule_transform (substitute_bytes t))
    (beLoad key 0 ^^^ SM4_FK.getD 0 0, beLoad key 4 ^^^ SM4_FK.getD 1 0,
     beLoad key 8 ^^^ SM4_FK.getD 2 0, beLoad key 12 ^^^ SM4_FK.getD 3 0) SM4_CK

/-- Scalar block encryption `sm4_block_encrypt` of part_002 / SM4Ttable.cpp:
load four big-endian words, run 32 rounds with `nonlinear_transform`, emit
the final window reversed, as big-endian bytes. -/
def sm4_block_encrypt (inp : List Nat) (rks : List Nat) : List Nat :=
  storeStateBE (rev4 (sm4Rounds nonlinear_transform rks (loadStateBE inp)))

/-- Round-key reversal of part_002 / SM4Ttable.cpp `sm4_block_decrypt`
(`reversed_round_keys[idx] = round_keys[31 - idx]`); the same indexing is
used inline by `SM4::decryptBlock` of sm4_gcm.cpp. -/
def reversed_round_keys (rks : List Nat) : List Nat :=
  (List.range 32).map fun i => rks.getD (31 - i) 0

/-- Scalar block decryption `sm4_block_decrypt` of part_002 / SM4Ttable.cpp:
re-run the encryption routine with the round keys reversed. -/
def sm4_block_decrypt (inp : List Nat) (rks : List Nat) : List Nat :=
  sm4_block_encrypt inp (reversed_round_keys rks)

namespace SM4Core

/-- Table `T0` generated by `SM4Core::GenerateLookupTables` (part_001):
`T0[i] = LinearTransform(SboxSubstitution(i << 24))`.  Note that
`SboxSubstitution` substitutes all four bytes, so the three low bytes of the
argument contribute `SBOX[0]` rather than zero. -/
def T0 (i : Nat) : Nat := linear_transform (substitute_bytes (i <<< 24))

/-- Table `T1 = RotateLeft(T0, 8)` of `GenerateLookupTables`. -/
def T1 (i : Nat) : Nat := rotate_left (T0 i) 8

/-- Table `T2 = RotateLeft(T0, 16)` of `GenerateLookupTables`. -/
def T2 (i : Nat) : Nat := rotate_left (T0 i) 16

/-- Table `T3 = RotateLeft(T0, 24)` of `GenerateLookupTables`. -/
def T3 (i : Nat) : Nat := rotate_left (T0 i) 24

end SM4Core

namespace SM4SIMD

/-- One 32-bit lane of `SM4SIMD::TransformAVX` (part_001); the AVX2 gathers
act on each lane independently, looking up `T0..T3` with the four bytes of
the lane (most significant byte indexing `T0`) and xoring the results in the
grouping `(v0 ^ v1) ^ (v2 ^ v3)` used by the source. -/
def TransformAVX (x : Nat) : Nat :=
  (SM4Core.T0 ((x >>> 24) &&& 255) ^^^ SM4Core.T1 ((x >>> 16) &&& 255)) ^^^
    (SM4Core.T2 ((x >>> 8) &&& 255) ^^^ SM4Core.T3 (x &&& 255))

/-- One lane of `SM4SIMD::ParallelEncrypt` (part_001): lanes are data
independent, and each lane runs the standard 32-round structure with
`TransformAVX` as the round transform, on big-endian loaded words, with the
final window reversed and stored big-endian. -/
def ParallelEncryptLane (inp : List Nat) (rks : List Nat) : List Nat :=
  storeStateBE (rev4 (sm4Rounds TransformAVX rks (loadStateBE inp)))

end SM4SIMD

namespace ParallelExecutor

/-- Partition computed by `ParallelExecutor::ExecuteParallel` (part_001):
`totalBatches = totalBlocks / batchSize` full batches are split over
`threadCount` workers (`batchesPerThread` each plus one extra for the first
`totalBatches % threadCount` workers); each launched worker receives its
starting batch offset and batch count, and workers with a zero count are
skipped.  The returned list holds the (offset, count) pair of every launched
worker. -/
def workerRanges (totalBlocks threadCount batchSize : Nat) : List (Nat × Nat) :=
  let totalBatches := totalBlocks / batchSize
  let bpt := totalBatches / threadCount
  let rem := totalBatches % threadCount
  ((List.range threadCount).foldl
    (fun (acc : List (Nat × Nat) × Nat) i =>
      let count := bpt + (if i < rem then 1 else 0)
      if count = 0 then acc else (acc.1 ++ [(acc.2, count)], acc.2 + count))
    ([], 0)).1

/-- Block indices actually transformed by `ExecuteParallel`: each worker's
`EncryptionTask` walks its `count` batches of `batchSize` blocks starting at
its byte offset, so worker (o, c) covers blocks `[o * batchSize,
(o + c) * batchSize)`.  No other code path touches the buffer. -/
def processedBlocks (totalBlocks threadCount batchSize : Nat) : List Nat :=
  (workerRanges totalBlocks threadCount batchSize).foldl
    (fun acc r => acc ++ List.range' (r.1 * batchSize) (r.2 * batchSize)) []

end ParallelExecutor

namespace SM4

/-- Byte-wise S-box pass `SM4::sbox` of sm4_gcm.cpp: the function rewrites
the four bytes of the `uint32_t` in place through the table, which on the
value level is exactly the shared byte-wise substitution. -/
def sbox (x : Nat) : Nat := substitute_bytes x

/-- Linear transform `SM4::L` of sm4_gcm.cpp:
`x ^ (x << 2) ^ (x << 10) ^ (x << 18) ^ (x << 24)` on `uint32_t` — plain
truncating left shifts, not rotations. -/
def L (x : Nat) : Nat :=
  x ^^^ ((x <<< 2) % 4294967296) ^^^ ((x <<< 10) % 4294967296) ^^^
    ((x <<< 18) % 4294967296) ^^^ ((x <<< 24) % 4294967296)

/-- Linear transform `SM4::LPrime` of sm4_gcm.cpp:
`x ^ (x << 13) ^ (x << 23)` on `uint32_t` — plain truncating left shifts. -/
def LPrime (x : Nat) : Nat :=
  x ^^^ ((x <<< 13) % 4294967296) ^^^ ((x <<< 23) % 4294967296)

/-- Key expansion `SM4::keyExpansion` of sm4_gcm.cpp: the key words are
`memcpy`-loaded (little-endian on the assumed host), xored with FK, and the
recurrence applies `sbox` then `LPrime`. -/
def keyExpansion (key : List Nat) : List Nat :=
  keySchedRec (fun t => LPrime (sbox t))
    (leLoad key 0 ^^^ SM4_FK.getD 0 0, leLoad key 4 ^^^ SM4_FK.getD 1 0,
     leLoad key 8 ^^^ SM4_FK.getD 2 0, leLoad key 12 ^^^ SM4_FK.getD 3 0) SM4_CK

/-- Little-endian state load of `SM4::encryptBlock` (`memcpy(x, input, 16)`). -/
def loadStateLE (bs : List Nat) : Quad :=
  (leLoad bs 0, leLoad bs 4, leLoad bs 8, leLoad bs 12)

/-- Little-endian state store of `SM4::encryptBlock`. -/
def storeStateLE : Quad → List Nat
  | (a, b, c, d) => leStore a ++ leStore b ++ leStore c ++ leStore d

/-- Block encryption `SM4::encryptBlock` of sm4_gcm.cpp: 32 rounds with
`L` after `sbox`, then the two final swaps reverse the word order. -/
def encryptBlock (rks : List Nat) (inp : List Nat) : List Nat :=
  storeStateLE (rev4 (sm4Rounds (fun t => L (sbox t)) rks (loadStateLE inp)))

/-- Block decryption `SM4::decryptBlock` of sm4_gcm.cpp: the identical loop
reading `rk_[31 - i]`, i.e. encryption with the reversed round keys. -/
def decryptBlock (rks : List Nat) (inp : List Nat) : List Nat :=
  encryptBlock (reversed_round_keys rks) inp

end SM4

namespace SM4_GCM

/-- Little-endian read of eight bytes into a 64-bit value (`memcpy` into a
`uint64_t` on the assumed little-endian host). -/
def le64 (bs : List Nat) : Nat := bs.foldr (fun b acc => b + 256 * acc) 0

/-- Little-endian write of a 64-bit value as eight bytes. -/
def le64Bytes (v : Nat) : List Nat := (List.range 8).map fun i => (v >>> (8 * i)) % 256

/-- Byte-wise xor of two buffers (the per-byte `^` loops of sm4_gcm.cpp);
`zipWith` stops at the shorter operand exactly as the partial-block loops
run only over the remaining bytes. -/
def xorBytes (xs ys : List Nat) : List Nat := List.zipWith (· ^^^ ·) xs ys

/-- Multiplication routine `SM4_GCM::gcmMultiply` of sm4_gcm.cpp: each
128-bit operand is split into two `uint64_t` halves (bytes 0..7 the "high"
half, bytes 8..15 the "low" half, both read little-endian), the two high
halves and the two low halves are multiplied as ordinary integers modulo
2^64, and the two products are written back as the high and low halves of
the result. -/
def gcmMultiply (a b : List Nat) : List Nat :=
  let aLow := le64 ((a.drop 8).take 8)
  let aHigh := le64 (a.take 8)
  let bLow := le64 ((b.drop 8).take 8)
  let bHigh := le64 (b.take 8)
  le64Bytes ((aHigh * bHigh) % (2 ^ 64)) ++ le64Bytes ((aLow * bLow) % (2 ^ 64))

/-- Per-message cipher state of the `SM4_GCM` class: round keys `rk_`,
hash subkey `h_`, stored IV `iv_` and initial counter block `j0_`. -/
structure GCMState where
  rk : List Nat
  h : List Nat
  iv : List Nat
  j0 : List Nat

/-- Method `SM4_GCM::setIV` of sm4_gcm.cpp, returning the stored IV and the
installed initial counter block: a 12-byte IV yields `IV || 00 00 00 01`;
any other length prints a message to `stderr`, `memset`s `j0_` to sixteen
zero bytes, and returns normally (the method is `void` and has no error
channel). -/
def setIV (iv : List Nat) : List Nat × List Nat :=
  (iv, if iv.length = 12 then iv ++ [0, 0, 0, 1] else List.replicate 16 0)

/-- Combined `setKey` + `setIV` state construction of the `SM4_GCM` class:
round keys from `SM4::keyExpansion`, hash subkey `h_` as the encryption of
the all-zero block, and `j0_` from `setIV`. -/
def mkState (key iv : List Nat) : GCMState :=
  let rks := SM4.keyExpansion key
  { rk := rks
    h := SM4.encryptBlock rks (List.replicate 16 0)
    iv := iv
    j0 := (setIV iv).2 }

/-- Counter block of `SM4_GCM::generateCounterBlock`: the first 12 stored IV
bytes followed by the 32-bit big-endian counter. -/
def counterBlock (st : GCMState) (c : Nat) : List Nat :=
  st.iv.take 12 ++ [(c >>> 24) % 256, (c >>> 16) % 256, (c >>> 8) % 256, c % 256]

/-- Hash loop `SM4_GCM::ghash`: starting from the zero block, xor in each
full 16-byte block of `data` and multiply by `h_` with `gcmMultiply`; a
trailing partial block is zero-padded to 16 bytes and absorbed the same
way. -/
def ghashFn (st : GCMState) (data : List Nat) : List Nat :=
  let n := data.length / 16
  let rem := data.length % 16
  let full := (List.range n).foldl
    (fun acc i => gcmMultiply (xorBytes acc ((data.drop (i * 16)).take 16)) st.h)
    (List.replicate 16 0)
  if rem = 0 then full
  else gcmMultiply
    (xorBytes full (((data.drop (n * 16)).take rem) ++ List.replicate (16 - rem) 0)) st.h

/-- Counter-mode keystream pass shared by `encryptAndAuthenticate` and
`decryptAndVerify`: block `i` (starting from 0) is xored with the encrypted
counter block for counter `i + 1`, and a trailing partial block is xored
only over its actual length. -/
def ctrCrypt (st : GCMState) (data : List Nat) : List Nat :=
  let n := data.length / 16
  let rem := data.length % 16
  ((List.range n).foldl (fun acc i =>
      acc ++ xorBytes ((data.drop (i * 16)).take 16)
        (SM4.encryptBlock st.rk (counterBlock st (i + 1)))) [])
  ++ (if rem = 0 then []
      else xorBytes ((data.drop (n * 16)).take rem)
        (SM4.encryptBlock st.rk (counterBlock st (n + 1))))

/-- Buffer hashed for authentication: `AAD || ciphertext || len(AAD) ||
len(ciphertext)`, the two lengths in bits written through a `uint64_t`
pointer, hence little-endian on the assumed host (the comment in the source
claims big-endian, the code writes little-endian). -/
def ghashInput (aad ct : List Nat) : List Nat :=
  aad ++ ct ++ le64Bytes ((aad.length * 8) % 2 ^ 64) ++ le64Bytes ((ct.length * 8) % 2 ^ 64)

/-- Full 16-byte tag computed by both directions:
`Encrypt(J0) ^ ghash(AAD || CT || lengths)`, byte by byte. -/
def gcmTagBytes (st : GCMState) (pt aad : List Nat) : List Nat :=
  (List.range 16).map fun j =>
    (SM4.encryptBlock st.rk st.j0).getD j 0 ^^^
      (ghashFn st (ghashInput aad (ctrCrypt st pt))).getD j 0

/-- Method `SM4_GCM::encryptAndAuthenticate`: rejects `tagLen > 16` with
`false` (writing nothing), otherwise produces the counter-mode ciphertext
and overwrites the caller's tag buffer with the full 16-byte tag via the
loop `for j in [0, 16): tag[j] = encrypted_j0[j] ^ ghash_result[j]` — the
loop bound ignores `tagLen`.  Returns (success, ciphertext, tag buffer). -/
def encryptAndAuthenticate (st : GCMState) (pt aad : List Nat) (tagLen : Nat)
    (tagBuf : List Nat) : Bool × List Nat × List Nat :=
  if 16 < tagLen then (false, [], tagBuf)
  else
    let ct := ctrCrypt st pt
    let gh := ghashFn st (ghashInput aad ct)
    let ej0 := SM4.encryptBlock st.rk st.j0
    (true, ct, (List.range 16).foldl
      (fun buf j => buf.set j (ej0.getD j 0 ^^^ gh.getD j 0)) tagBuf)

/-- Method `SM4_GCM::decryptAndVerify`: rejects `tagLen > 16`, otherwise
recovers the plaintext with the same counter-mode pass, recomputes the
expected tag and returns `memcmp(tag, expected_tag, tagLen) == 0`, i.e. the
comparison of only the first `tagLen` bytes.  Returns (plaintext, success). -/
def decryptAndVerify (st : GCMState) (ct aad tag : List Nat) (tagLen : Nat) :
    List Nat × Bool :=
  if 16 < tagLen then ([], false)
  else
    let pt := ctrCrypt st ct
    let gh := ghashFn st (ghashInput aad ct)
    let ej0 := SM4.encryptBlock st.rk st.j0
    let expected := (List.range 16).map fun j => ej0.getD j 0 ^^^ gh.getD j 0
    (pt, tag.take tagLen == expected.take tagLen)

end SM4_GCM

/-- Big-endian value of a byte string (most significant byte first), used to
state facts about 128-bit blocks as numbers. -/
def beNat (bs : List Nat) : Nat := bs.foldl (fun acc b => acc * 256 + b) 0

/-- Big-endian 16-byte encoding of a 128-bit value. -/
def beBytes16 (v : Nat) : List Nat := (List.range 16).map fun i => (v >>> (8 * (15 - i))) % 256

/-- Modelled from the spec: genuine GF(2^128) multiplication "carry-less
(XOR-based) polynomial multiplication reduced modulo the standard GCM
reduction polynomial", written as the standard GCM algorithm (blocks read as
128-bit strings, reduction polynomial block `E1 00 .. 00`).  This is the
reference the spec demands of the field-multiply routine; it appears nowhere
in the repository sources and exists here only to be compared against
`SM4_GCM.gcmMultiply`. -/
def gf128MulSpec (a b : List Nat) : List Nat :=
  let x := beNat a
  let r := 0xE1 <<< 120
  beBytes16 (((List.range 128).foldl (fun (zv : Nat × Nat) i =>
      (if x.testBit (127 - i) then zv.1 ^^^ zv.2 else zv.1,
       if zv.2 % 2 = 1 then (zv.2 / 2) ^^^ r else zv.2 / 2)) (0, beNat b)).1)

/-- Standard test key `01 23 45 67 89 AB CD EF FE DC BA 98 76 54 32 10`. -/
def stdKey : List Nat :=
  [0x01,0x23,0x45,0x67,0x89,0xAB,0xCD,0xEF,0xFE,0xDC,0xBA,0x98,0x76,0x54,0x32,0x10]

/-- Test block 00..02, used as an operand of the field multiply. -/
def gfTestBlock : List Nat := List.replicate 15 0 ++ [2]

/-- Concrete GCM state for the all-zero key and all-zero 12-byte IV. -/
def gcmTestState : SM4_GCM.GCMState :=
  SM4_GCM.mkState (List.replicate 16 0) (List.replicate 12 0)

/-- C1: the authentication multiply of `SM4_GCM` is an integer multiply of
the two 64-bit halves, not a GF(2^128) field multiply.  On the operand
`00..02` paired with itself the routine returns the all-zero block (both
64-bit half products overflow to zero), whereas the carry-less field
multiplication of the spec, being a product of nonzero field elements, is
nonzero; so `gcmMultiply` does not implement GF(2^128) multiplication. -/
theorem claim_C1_gcmMultiply_is_integer_multiply :
    SM4_GCM.gcmMultiply gfTestBlock gfTestBlock = List.replicate 16 0 ∧
    gf128MulSpec gfTestBlock gfTestBlock ≠ List.replicate 16 0 := by
  decide

/-- C2: the optimized tiers are not output-equivalent to the scalar
reference.  The fused-table round function of part_001 differs from the
scalar round transform already at input 0 (its tables are generated from a
full-word substitution of `i << 24`, dragging `SBOX[0]` into the low bytes,
and pair the second byte with the 8-bit-rotated table where the scalar
round requires the 24-bit rotation), and consequently lane 0 of the
vectorized batch encryption of the all-zero block under the all-zero key
differs from the scalar block encryption. -/
theorem claim_C2_fused_and_vector_tiers_diverge_from_scalar :
    SM4SIMD.TransformAVX 0 ≠ nonlinear_transform 0 ∧
    SM4SIMD.ParallelEncryptLane (List.replicate 16 0)
        (generate_round_keys (List.replicate 16 0)) ≠
      sm4_block_encrypt (List.replicate 16 0)
        (generate_round_keys (List.replicate 16 0)) := by
  decide

/-- C3: `SM4_GCM::setIV` does not fail closed on an unsupported IV length.
Bound to an 8-byte IV it installs the all-zero initial counter block and
returns normally (the method is `void`, so no error reaches the caller),
contradicting the claim that a non-12-byte IV fails with a configuration
error and never installs a zero-filled default counter block. -/
theorem claim_C3_setIV_installs_zero_counter_block :
    (SM4_GCM.setIV (List.replicate 8 0xAB)).2 = List.replicate 16 0 := by
  decide

/-- C4: tamper sensitivity fails.  For the all-zero key and IV, the 16-byte
all-zero plaintext, empty AAD and tag length 16, encryption succeeds, yet
flipping the top bit of ciphertext byte 7 produces a different ciphertext
that `decryptAndVerify` still accepts: the flipped bit is bit 63 of the
"high" 64-bit half of the hashed block, and since the high half of the hash
subkey is even, the truncated integer product in `gcmMultiply` is unchanged
modulo 2^64. -/
theorem claim_C4_single_bit_flip_accepted :
    (SM4_GCM.encryptAndAuthenticate gcmTestState (List.replicate 16 0) [] 16
        (List.replicate 16 0)).1 = true ∧
    ((SM4_GCM.encryptAndAuthenticate gcmTestState (List.replicate 16 0) [] 16
        (List.replicate 16 0)).2.1.set 7
      ((SM4_GCM.encryptAndAuthenticate gcmTestState (List.replicate 16 0) [] 16
          (List.replicate 16 0)).2.1.getD 7 0 ^^^ 128) ≠
      (SM4_GCM.encryptAndAuthenticate gcmTestState (List.replicate 16 0) [] 16
        (List.replicate 16 0)).2.1) ∧
    (SM4_GCM.decryptAndVerify gcmTestState
      ((SM4_GCM.encryptAndAuthenticate gcmTestState (List.replicate 16 0) [] 16
          (List.replicate 16 0)).2.1.set 7
        ((SM4_GCM.encryptAndAuthenticate gcmTestState (List.replicate 16 0) [] 16
            (List.replicate 16 0)).2.1.getD 7 0 ^^^ 128))
      []
      (SM4_GCM.encryptAndAuthenticate gcmTestState (List.replicate 16 0) [] 16
        (List.replicate 16 0)).2.2
      16).2 = true := by
  decide

/-- C6 counterexample: the ciphertext value claimed by the spec,
`0x681EDF34D206965E86B3E94F536E424` (31 hex digits), is not the value of the
block produced by the scalar engine for the standard key/plaintext pair; the
spec's string dropped the final digit of the published vector. -/
theorem claim_C6_spec_vector_counterexample :
    beNat (sm4_block_encrypt stdKey (generate_round_keys stdKey)) ≠
      0x681EDF34D206965E86B3E94F536E424 := by
  decide

/-- C6 amended: encrypting the standard test block under the standard test
key with the scalar block engine yields the published SM4 vector
`68 1E DF 34 D2 06 96 5E 86 B3 E9 4F 53 6E 42 46`. -/
theorem claim_C6_standard_vector_amended :
    sm4_block_encrypt stdKey (generate_round_keys stdKey) =
      [0x68,0x1E,0xDF,0x34,0xD2,0x06,0x96,0x5E,
       0x86,0xB3,0xE9,0x4F,0x53,0x6E,0x42,0x46] := by
  decide

/-- C7: `SM4::LPrime` of sm4_gcm.cpp uses plain truncating left shifts, not
circular rotations: at `x = 0x80000000` both shifted terms overflow to zero
and the function returns its input unchanged, while the rotation-based
key-schedule transform of part_002 returns `0x80401000` as the claim
requires; the two transforms disagree. -/
theorem claim_C7_LPrime_uses_plain_shift :
    SM4.LPrime 0x80000000 = 0x80000000 ∧
    key_schedule_transform 0x80000000 = 0x80401000 ∧
    SM4.LPrime 0x80000000 ≠ key_schedule_transform 0x80000000 := by
  decide

/-- C8: the batch scheduler drops tail blocks.  With 9 blocks and batch
size 8, only batch 0 (blocks 0..7) is ever assigned to a worker — for one
worker and for four workers alike — and block 8 is not processed by any
worker; no scalar fallback exists in `ExecuteParallel`. -/
theorem claim_C8_tail_blocks_not_processed :
    ParallelExecutor.processedBlocks 9 1 8 = List.range 8 ∧
    ParallelExecutor.processedBlocks 9 4 8 = List.range 8 ∧
    8 ∉ ParallelExecutor.processedBlocks 9 4 8 := by
  decide

/-- Bitwise or of a shifted value with a value that fits below the shift is
addition. -/
theorem or_eq_add_of_lt (k : Nat) {a b : Nat} (hb : b < 2 ^ k) :
    (a <<< k) ||| b = 2 ^ k * a + b := by
  apply Nat.eq_of_testBit_eq
  intro j
  rw [Nat.testBit_or, Nat.testBit_shiftLeft, Nat.testBit_mul_pow_two_add a hb j]
  by_cases h : j < k
  · have hk : ¬ (j ≥ k) := by omega
    simp [h, hk]
  · have hk : j ≥ k := by omega
    have hbf : b.testBit j = false :=
      Nat.testBit_lt_two_pow (Nat.lt_of_lt_of_le hb (Nat.pow_le_pow_right (by omega) hk))
    simp [h, hk, hbf]

/-- Bitwise or of a multiple of `2 ^ k` with a value below `2 ^ k` is
addition. -/
theorem or_eq_add_of_mod (k : Nat) {x y : Nat} (hx : x % 2 ^ k = 0) (hy : y < 2 ^ k) :
    x ||| y = x + y := by
  have hdvd : 2 ^ k ∣ x := Nat.dvd_of_mod_eq_zero hx
  have hd : x = (x / 2 ^ k) <<< k := by
    rw [Nat.shiftLeft_eq, Nat.div_mul_cancel hdvd]
  calc x ||| y = (x / 2 ^ k) <<< k ||| y := by rw [← hd]
    _ = 2 ^ k * (x / 2 ^ k) + y := or_eq_add_of_lt k hy
    _ = x + y := by rw [Nat.mul_div_cancel' hdvd]

/-- Arithmetic value of the big-endian byte pack. -/
theorem word_pack_eq (b0 b1 b2 b3 : Nat) (h1 : b1 < 256) (h2 : b2 < 256) (h3 : b3 < 256) :
    word_pack b0 b1 b2 b3 = b0 * 2 ^ 24 + b1 * 2 ^ 16 + b2 * 2 ^ 8 + b3 := by
  have e1 : (b0 <<< 24) ||| (b1 <<< 16) = b0 <<< 24 + b1 <<< 16 := by
    apply or_eq_add_of_mod 24
    · simp only [Nat.shiftLeft_eq]; omega
    · simp only [Nat.shiftLeft_eq]; omega
  have e2 : (b0 <<< 24 + b1 <<< 16) ||| (b2 <<< 8) = b0 <<< 24 + b1 <<< 16 + b2 <<< 8 := by
    apply or_eq_add_of_mod 16
    · simp only [Nat.shiftLeft_eq]; omega
    · simp only [Nat.shiftLeft_eq]; omega
  have e3 : (b0 <<< 24 + b1 <<< 16 + b2 <<< 8) ||| b3 =
      b0 <<< 24 + b1 <<< 16 + b2 <<< 8 + b3 := by
    apply or_eq_add_of_mod 8
    · simp only [Nat.shiftLeft_eq]; omega
    · omega
  unfold word_pack
  rw [e1, e2, e3]
  simp only [Nat.shiftLeft_eq]

/-- The big-endian byte pack of bytes is a 32-bit word. -/
theorem word_pack_lt (b0 b1 b2 b3 : Nat) (h0 : b0 < 256) (h1 : b1 < 256)
    (h2 : b2 < 256) (h3 : b3 < 256) : word_pack b0 b1 b2 b3 < 2 ^ 32 := by
  rw [word_pack_eq b0 b1 b2 b3 h1 h2 h3]
  omega

/-- Storing a packed word big-endian recovers the four bytes. -/
theorem beStore_word_pack (b0 b1 b2 b3 : Nat) (h0 : b0 < 256) (h1 : b1 < 256)
    (h2 : b2 < 256) (h3 : b3 < 256) :
    beStore (word_pack b0 b1 b2 b3) = [b0, b1, b2, b3] := by
  unfold beStore
  rw [word_pack_eq b0 b1 b2 b3 h1 h2 h3]
  simp only [Nat.shiftRight_eq_div_pow, List.cons.injEq, and_true]
  omega

/-- Storing a packed word little-endian recovers the four bytes (the pack
reads the bytes in the opposite order). -/
theorem leStore_word_pack (b0 b1 b2 b3 : Nat) (h0 : b0 < 256) (h1 : b1 < 256)
    (h2 : b2 < 256) (h3 : b3 < 256) :
    leStore (word_pack b3 b2 b1 b0) = [b0, b1, b2, b3] := by
  unfold leStore
  rw [word_pack_eq b3 b2 b1 b0 h2 h1 h0]
  simp only [Nat.shiftRight_eq_div_pow, List.cons.injEq, and_true]
  omega

/-- Packing the four stored bytes of a 32-bit word recovers the word. -/
theorem word_pack_store (w : Nat) (hw : w < 4294967296) :
    word_pack ((w >>> 24) % 256) ((w >>> 16) % 256) ((w >>> 8) % 256) (w % 256) = w := by
  rw [word_pack_eq _ _ _ _ (by omega) (by omega) (by omega)]
  simp only [Nat.shiftRight_eq_div_pow]
  omega

/-- Masking with 255 yields a byte. -/
theorem mask8_lt (y : Nat) : y &&& 255 < 256 :=
  Nat.lt_succ_of_le Nat.and_le_right

/-- Every table entry below index 256 is a byte. -/
theorem sboxAt_lt_of_lt : ∀ i, i < 256 → sboxAt i < 256 := by decide

/-- Every masked table lookup is a byte. -/
theorem sboxAt_mask_lt (y : Nat) : sboxAt (y &&& 255) < 256 :=
  sboxAt_lt_of_lt _ (mask8_lt y)

/-- A byte shifted left by at most 24 stays below 2^32. -/
theorem shifted_byte_lt (s k : Nat) (hs : s < 256) (hk : k ≤ 24) : s <<< k < 2 ^ 32 := by
  rw [Nat.shiftLeft_eq]
  have h2 : 2 ^ k ≤ 2 ^ 24 := Nat.pow_le_pow_right (by omega) hk
  have h3 : s * 2 ^ k ≤ 255 * 2 ^ 24 := Nat.mul_le_mul (by omega) h2
  omega

/-- The byte-wise substitution always produces a 32-bit word. -/
theorem substitute_bytes_lt (x : Nat) : substitute_bytes x < 2 ^ 32 := by
  unfold substitute_bytes
  refine Nat.or_lt_two_pow (Nat.or_lt_two_pow (Nat.or_lt_two_pow ?_ ?_) ?_) ?_
  · exact shifted_byte_lt _ 24 (sboxAt_mask_lt _) (by omega)
  · exact shifted_byte_lt _ 16 (sboxAt_mask_lt _) (by omega)
  · exact shifted_byte_lt _ 8 (sboxAt_mask_lt _) (by omega)
  · exact Nat.lt_of_lt_of_le (sboxAt_mask_lt _) (by norm_num)

/-- Reduction modulo 2^32 produces a 32-bit word. -/
theorem mod32_lt (v : Nat) : v % 4294967296 < 2 ^ 32 := by
  have h := Nat.mod_lt v (show 0 < 4294967296 by norm_num)
  omega

/-- Rotation preserves 32-bit words. -/
theorem rotate_left_lt (v sh : Nat) (hv : v < 2 ^ 32) : rotate_left v sh < 2 ^ 32 := by
  unfold rotate_left
  refine Nat.or_lt_two_pow (mod32_lt _) ?_
  have h1 : v >>> (32 - sh) ≤ v := by
    rw [Nat.shiftRight_eq_div_pow]; exact Nat.div_le_self _ _
  exact Nat.lt_of_le_of_lt h1 hv

/-- The diffusion transform preserves 32-bit words. -/
theorem linear_transform_lt (x : Nat) (hx : x < 2 ^ 32) : linear_transform x < 2 ^ 32 := by
  unfold linear_transform
  exact Nat.xor_lt_two_pow (Nat.xor_lt_two_pow (Nat.xor_lt_two_pow
    (Nat.xor_lt_two_pow hx (rotate_left_lt _ _ hx)) (rotate_left_lt _ _ hx))
    (rotate_left_lt _ _ hx)) (rotate_left_lt _ _ hx)

/-- The scalar round transform always produces a 32-bit word. -/
theorem nonlinear_transform_lt (x : Nat) : nonlinear_transform x < 2 ^ 32 :=
  linear_transform_lt _ (substitute_bytes_lt x)

/-- The shift-based transform of sm4_gcm.cpp preserves 32-bit words. -/
theorem sm4gcm_L_lt (x : Nat) (hx : x < 2 ^ 32) : SM4.L x < 2 ^ 32 := by
  unfold SM4.L
  exact Nat.xor_lt_two_pow (Nat.xor_lt_two_pow (Nat.xor_lt_two_pow
    (Nat.xor_lt_two_pow hx (mod32_lt _)) (mod32_lt _)) (mod32_lt _)) (mod32_lt _)

/-- The sm4_gcm.cpp round transform always produces a 32-bit word. -/
theorem sm4gcm_round_transform_lt (x : Nat) : SM4.L (SM4.sbox x) < 2 ^ 32 :=
  sm4gcm_L_lt _ (substitute_bytes_lt x)

/-- All four registers of a state are 32-bit words. -/
def B32 (s : Quad) : Prop :=
  s.1 < 2 ^ 32 ∧ s.2.1 < 2 ^ 32 ∧ s.2.2.1 < 2 ^ 32 ∧ s.2.2.2 < 2 ^ 32

/-- One round preserves word bounds when the round transform does. -/
theorem sm4Round_B32 (f : Nat → Nat) (hf : ∀ x, f x < 2 ^ 32) (s : Quad) (rk : Nat)
    (hs : B32 s) : B32 (sm4Round f s rk) := by
  obtain ⟨a, b, c, d⟩ := s
  obtain ⟨ha, hb, hc, hd⟩ := hs
  exact ⟨hb, hc, hd, Nat.xor_lt_two_pow ha (hf _)⟩

/-- The round loop preserves word bounds. -/
theorem sm4Rounds_B32 (f : Nat → Nat) (hf : ∀ x, f x < 2 ^ 32) (rks : List Nat) :
    ∀ s : Quad, B32 s → B32 (sm4Rounds f rks s) := by
  induction rks with
  | nil => intro s hs; exact hs
  | cons k ks ih => intro s hs; exact ih (sm4Round f s k) (sm4Round_B32 f hf s k hs)

/-- Word reversal preserves bounds. -/
theorem rev4_B32 (s : Quad) (hs : B32 s) : B32 (rev4 s) := by
  obtain ⟨a, b, c, d⟩ := s
  obtain ⟨ha, hb, hc, hd⟩ := hs
  exact ⟨hd, hc, hb, ha⟩

/-- The xor of three values read backwards. -/
theorem xor_rot (x y z : Nat) : x ^^^ y ^^^ z = z ^^^ y ^^^ x := by
  rw [Nat.xor_assoc, Nat.xor_comm x, Nat.xor_comm y z]

/-- Word reversal is an involution. -/
theorem rev4_rev4 (s : Quad) : rev4 (rev4 s) = s := by
  obtain ⟨a, b, c, d⟩ := s
  rfl

/-- One round followed, after word reversal, by the same round again undoes
itself: the Feistel-style update cancels through the xor, whatever the round
transform is. -/
theorem sm4Round_involution (f : Nat → Nat) (k : Nat) (s : Quad) :
    rev4 (sm4Round f (rev4 (sm4Round f s k)) k) = s := by
  obtain ⟨a, b, c, d⟩ := s
  show ((a ^^^ f (b ^^^ c ^^^ d ^^^ k)) ^^^ f (d ^^^ c ^^^ b ^^^ k), b, c, d) = (a, b, c, d)
  rw [show d ^^^ c ^^^ b ^^^ k = b ^^^ c ^^^ d ^^^ k by rw [xor_rot d c b]]
  rw [Nat.xor_assoc, Nat.xor_self, Nat.xor_zero]

/-- Running the rounds with the reversed key sequence inverts the rounds, up
to the word reversal on both sides; this is the core of the SM4 decryption
identity and holds for any round transform. -/
theorem sm4Rounds_involution (f : Nat → Nat) (ks : List Nat) :
    ∀ s : Quad, rev4 (sm4Rounds f ks.reverse (rev4 (sm4Rounds f ks s))) = s := by
  induction ks with
  | nil => intro s; exact rev4_rev4 s
  | cons k ks ih =>
    intro s
    have hstep : sm4Rounds f (k :: ks) s = sm4Rounds f ks (sm4Round f s k) := rfl
    have happ : ∀ t : Quad, sm4Rounds f ((k :: ks).reverse) t =
        sm4Round f (sm4Rounds f ks.reverse t) k := by
      intro t
      rw [List.reverse_cons]
      unfold sm4Rounds
      rw [List.foldl_append]
      rfl
    rw [hstep, happ]
    have h1 : sm4Rounds f ks.reverse (rev4 (sm4Rounds f ks (sm4Round f s k))) =
        rev4 (sm4Round f s k) := by
      have h2 := congrArg rev4 (ih (sm4Round f s k))
      rwa [rev4_rev4] at h2
    rw [h1]
    exact sm4Round_involution f k s

/-- The key-schedule recurrence emits one round key per round constant. -/
theorem keySchedRec_length (tk : Nat → Nat) (cks : List Nat) :
    ∀ q : Quad, (keySchedRec tk q cks).length = cks.length := by
  induction cks with
  | nil => intro q; rfl
  | cons ck rest ih =>
    intro q
    obtain ⟨k0, k1, k2, k3⟩ := q
    simp only [keySchedRec, List.length_cons, ih]

/-- part_002 / SM4Ttable.cpp derive exactly 32 round keys. -/
theorem generate_round_keys_length (key : List Nat) :
    (generate_round_keys key).length = 32 := by
  unfold generate_round_keys
  rw [keySchedRec_length]
  rfl

/-- sm4_gcm.cpp derives exactly 32 round keys. -/
theorem keyExpansion_length (key : List Nat) :
    (SM4.keyExpansion key).length = 32 := by
  unfold SM4.keyExpansion
  rw [keySchedRec_length]
  rfl

/-- Destructuring of a 16-byte buffer. -/
theorem exists_list16 (l : List Nat) (h : l.length = 16) :
    ∃ b0 b1 b2 b3 b4 b5 b6 b7 b8 b9 b10 b11 b12 b13 b14 b15,
      l = [b0, b1, b2, b3, b4, b5, b6, b7, b8, b9, b10, b11, b12, b13, b14, b15] := by
  rcases l with _ | ⟨b0, l⟩
  · simp only [List.length_cons, List.length_nil] at h; omega
  rcases l with _ | ⟨b1, l⟩
  · simp only [List.length_cons, List.length_nil] at h; omega
  rcases l with _ | ⟨b2, l⟩
  · simp only [List.length_cons, List.length_nil] at h; omega
  rcases l with _ | ⟨b3, l⟩
  · simp only [List.length_cons, List.length_nil] at h; omega
  rcases l with _ | ⟨b4, l⟩
  · simp only [List.length_cons, List.length_nil] at h; omega
  rcases l with _ | ⟨b5, l⟩
  · simp only [List.length_cons, List.length_nil] at h; omega
  rcases l with _ | ⟨b6, l⟩
  · simp only [List.length_cons, List.length_nil] at h; omega
  rcases l with _ | ⟨b7, l⟩
  · simp only [List.length_cons, List.length_nil] at h; omega
  rcases l with _ | ⟨b8, l⟩
  · simp only [List.length_cons, List.length_nil] at h; omega
  rcases l with _ | ⟨b9, l⟩
  · simp only [List.length_cons, List.length_nil] at h; omega
  rcases l with _ | ⟨b10, l⟩
  · simp only [List.length_cons, List.length_nil] at h; omega
  rcases l with _ | ⟨b11, l⟩
  · simp only [List.length_cons, List.length_nil] at h; omega
  rcases l with _ | ⟨b12, l⟩
  · simp only [List.length_cons, List.length_nil] at h; omega
  rcases l with _ | ⟨b13, l⟩
  · simp only [List.length_cons, List.length_nil] at h; omega
  rcases l with _ | ⟨b14, l⟩
  · simp only [List.length_cons, List.length_nil] at h; omega
  rcases l with _ | ⟨b15, l⟩
  · simp only [List.length_cons, List.length_nil] at h; omega
  rcases l with _ | ⟨x, l⟩
  · exact ⟨b0, b1, b2, b3, b4, b5, b6, b7, b8, b9, b10, b11, b12, b13, b14, b15, rfl⟩
  · simp only [List.length_cons, List.length_nil] at h; omega

/-- Destructuring of a 32-entry round-key sequence. -/
theorem exists_list32 (l : List Nat) (h : l.length = 32) :
    ∃ k0 k1 k2 k3 k4 k5 k6 k7 k8 k9 k10 k11 k12 k13 k14 k15
      k16 k17 k18 k19 k20 k21 k22 k23 k24 k25 k26 k27 k28 k29 k30 k31,
      l = [k0, k1, k2, k3, k4, k5, k6, k7, k8, k9, k10, k11, k12, k13, k14, k15, k16, k17, k18, k19, k20, k21, k22, k23, k24, k25, k26, k27, k28, k29, k30, k31] := by
  rcases l with _ | ⟨k0, l⟩
  · simp only [List.length_cons, List.length_nil] at h; omega
  rcases l with _ | ⟨k1, l⟩
  · simp only [List.length_cons, List.length_nil] at h; omega
  rcases l with _ | ⟨k2, l⟩
  · simp only [List.length_cons, List.length_nil] at h; omega
  rcases l with _ | ⟨k3, l⟩
  · simp only [List.length_cons, List.length_nil] at h; omega
  rcases l with _ | ⟨k4, l⟩
  · simp only [List.length_cons, List.length_nil] at h; omega
  rcases l with _ | ⟨k5, l⟩
  · simp only [List.length_cons, List.length_nil] at h; omega
  rcases l with _ | ⟨k6, l⟩
  · simp only [List.length_cons, List.length_nil] at h; omega
  rcases l with _ | ⟨k7, l⟩
  · simp only [List.length_cons, List.length_nil] at h; omega
  rcases l with _ | ⟨k8, l⟩
  · simp only [List.length_cons, List.length_nil] at h; omega
  rcases l with _ | ⟨k9, l⟩
  · simp only [List.length_cons, List.length_nil] at h; omega
  rcases l with _ | ⟨k10, l⟩
  · simp only [List.length_cons, List.length_nil] at h; omega
  rcases l with _ | ⟨k11, l⟩
  · simp only [List.length_cons, List.length_nil] at h; omega
  rcases l with _ | ⟨k12, l⟩
  · simp only [List.length_cons, List.length_nil] at h; omega
  rcases l with _ | ⟨k13, l⟩
  · simp only [List.length_cons, List.length_nil] at h; omega
  rcases l with _ | ⟨k14, l⟩
  · simp only [List.length_cons, List.length_nil] at h; omega
  rcases l with _ | ⟨k15, l⟩
  · simp only [List.length_cons, List.length_nil] at h; omega
  rcases l with _ | ⟨k16, l⟩
  · simp only [List.length_cons, List.length_nil] at h; omega
  rcases l with _ | ⟨k17, l⟩
  · simp only [List.length_cons, List.length_nil] at h; omega
  rcases l with _ | ⟨k18, l⟩
  · simp only [List.length_cons, List.length_nil] at h; omega
  rcases l with _ | ⟨k19, l⟩
  · simp only [List.length_cons, List.length_nil] at h; omega
  rcases l with _ | ⟨k20, l⟩
  · simp only [List.length_cons, List.length_nil] at h; omega
  rcases l with _ | ⟨k21, l⟩
  · simp only [List.length_cons, List.length_nil] at h; omega
  rcases l with _ | ⟨k22, l⟩
  · simp only [List.length_cons, List.length_nil] at h; omega
  rcases l with _ | ⟨k23, l⟩
  · simp only [List.length_cons, List.length_nil] at h; omega
  rcases l with _ | ⟨k24, l⟩
  · simp only [List.length_cons, List.length_nil] at h; omega
  rcases l with _ | ⟨k25, l⟩
  · simp only [List.length_cons, List.length_nil] at h; omega
  rcases l with _ | ⟨k26, l⟩
  · simp only [List.length_cons, List.length_nil] at h; omega
  rcases l with _ | ⟨k27, l⟩
  · simp only [List.length_cons, List.length_nil] at h; omega
  rcases l with _ | ⟨k28, l⟩
  · simp only [List.length_cons, List.length_nil] at h; omega
  rcases l with _ | ⟨k29, l⟩
  · simp only [List.length_cons, List.length_nil] at h; omega
  rcases l with _ | ⟨k30, l⟩
  · simp only [List.length_cons, List.length_nil] at h; omega
  rcases l with _ | ⟨k31, l⟩
  · simp only [List.length_cons, List.length_nil] at h; omega
  rcases l with _ | ⟨x, l⟩
  · exact ⟨k0, k1, k2, k3, k4, k5, k6, k7, k8, k9, k10, k11, k12, k13, k14, k15, k16, k17, k18, k19, k20, k21, k22, k23, k24, k25, k26, k27, k28, k29, k30, k31, rfl⟩
  · simp only [List.length_cons, List.length_nil] at h; omega

/-- Building the reversed key sequence by indexing `31 - idx` is list
reversal once the sequence has length 32. -/
theorem reversed_round_keys_eq (rks : List Nat) (h : rks.length = 32) :
    reversed_round_keys rks = rks.reverse := by
  obtain ⟨k0, k1, k2, k3, k4, k5, k6, k7, k8, k9, k10, k11, k12, k13, k14, k15,
    k16, k17, k18, k19, k20, k21, k22, k23, k24, k25, k26, k27, k28, k29, k30, k31,
    rfl⟩ := exists_list32 rks h
  rfl

/-- Reloading a stored state recovers the state (big-endian order). -/
theorem loadStateBE_store (q : Quad) (hq : B32 q) : loadStateBE (storeStateBE q) = q := by
  obtain ⟨a, b, c, d⟩ := q
  obtain ⟨ha, hb, hc, hd⟩ := hq
  have ha2 : a < 2 ^ 32 := ha
  have hb2 : b < 2 ^ 32 := hb
  have hc2 : c < 2 ^ 32 := hc
  have hd2 : d < 2 ^ 32 := hd
  show (word_pack ((a >>> 24) % 256) ((a >>> 16) % 256) ((a >>> 8) % 256) (a % 256),
        word_pack ((b >>> 24) % 256) ((b >>> 16) % 256) ((b >>> 8) % 256) (b % 256),
        word_pack ((c >>> 24) % 256) ((c >>> 16) % 256) ((c >>> 8) % 256) (c % 256),
        word_pack ((d >>> 24) % 256) ((d >>> 16) % 256) ((d >>> 8) % 256) (d % 256)) =
      (a, b, c, d)
  rw [word_pack_store a (by omega), word_pack_store b (by omega),
      word_pack_store c (by omega), word_pack_store d (by omega)]

/-- Reloading a stored state recovers the state (little-endian order). -/
theorem loadStateLE_store (q : Quad) (hq : B32 q) :
    SM4.loadStateLE (SM4.storeStateLE q) = q := by
  obtain ⟨a, b, c, d⟩ := q
  obtain ⟨ha, hb, hc, hd⟩ := hq
  have ha2 : a < 2 ^ 32 := ha
  have hb2 : b < 2 ^ 32 := hb
  have hc2 : c < 2 ^ 32 := hc
  have hd2 : d < 2 ^ 32 := hd
  show (word_pack ((a >>> 24) % 256) ((a >>> 16) % 256) ((a >>> 8) % 256) (a % 256),
        word_pack ((b >>> 24) % 256) ((b >>> 16) % 256) ((b >>> 8) % 256) (b % 256),
        word_pack ((c >>> 24) % 256) ((c >>> 16) % 256) ((c >>> 8) % 256) (c % 256),
        word_pack ((d >>> 24) % 256) ((d >>> 16) % 256) ((d >>> 8) % 256) (d % 256)) =
      (a, b, c, d)
  rw [word_pack_store a (by omega), word_pack_store b (by omega),
      word_pack_store c (by omega), word_pack_store d (by omega)]

/-- Storing a loaded 16-byte block returns the block (big-endian). -/
theorem storeStateBE_load (b0 b1 b2 b3 b4 b5 b6 b7 b8 b9 b10 b11 b12 b13 b14 b15 : Nat)
    (h0 : b0 < 256) (h1 : b1 < 256) (h2 : b2 < 256) (h3 : b3 < 256) (h4 : b4 < 256) (h5 : b5 < 256) (h6 : b6 < 256) (h7 : b7 < 256)
    (h8 : b8 < 256) (h9 : b9 < 256) (h10 : b10 < 256) (h11 : b11 < 256) (h12 : b12 < 256) (h13 : b13 < 256) (h14 : b14 < 256) (h15 : b15 < 256) :
    storeStateBE (loadStateBE [b0, b1, b2, b3, b4, b5, b6, b7, b8, b9, b10, b11, b12, b13, b14, b15]) = [b0, b1, b2, b3, b4, b5, b6, b7, b8, b9, b10, b11, b12, b13, b14, b15] := by
  show beStore (word_pack b0 b1 b2 b3) ++ beStore (word_pack b4 b5 b6 b7) ++
      beStore (word_pack b8 b9 b10 b11) ++ beStore (word_pack b12 b13 b14 b15) = _
  rw [beStore_word_pack _ _ _ _ h0 h1 h2 h3, beStore_word_pack _ _ _ _ h4 h5 h6 h7,
      beStore_word_pack _ _ _ _ h8 h9 h10 h11, beStore_word_pack _ _ _ _ h12 h13 h14 h15]
  rfl

/-- Storing a loaded 16-byte block returns the block (little-endian). -/
theorem storeStateLE_load (b0 b1 b2 b3 b4 b5 b6 b7 b8 b9 b10 b11 b12 b13 b14 b15 : Nat)
    (h0 : b0 < 256) (h1 : b1 < 256) (h2 : b2 < 256) (h3 : b3 < 256) (h4 : b4 < 256) (h5 : b5 < 256) (h6 : b6 < 256) (h7 : b7 < 256)
    (h8 : b8 < 256) (h9 : b9 < 256) (h10 : b10 < 256) (h11 : b11 < 256) (h12 : b12 < 256) (h13 : b13 < 256) (h14 : b14 < 256) (h15 : b15 < 256) :
    SM4.storeStateLE (SM4.loadStateLE [b0, b1, b2, b3, b4, b5, b6, b7, b8, b9, b10, b11, b12, b13, b14, b15]) = [b0, b1, b2, b3, b4, b5, b6, b7, b8, b9, b10, b11, b12, b13, b14, b15] := by
  show leStore (word_pack b3 b2 b1 b0) ++ leStore (word_pack b7 b6 b5 b4) ++
      leStore (word_pack b11 b10 b9 b8) ++ leStore (word_pack b15 b14 b13 b12) = _
  rw [leStore_word_pack _ _ _ _ h0 h1 h2 h3, leStore_word_pack _ _ _ _ h4 h5 h6 h7,
      leStore_word_pack _ _ _ _ h8 h9 h10 h11, leStore_word_pack _ _ _ _ h12 h13 h14 h15]
  rfl

/-- Round trip of the part_002 / SM4Ttable.cpp scalar engine: for any 32
round keys, decryption of an encryption of a 16-byte block returns the
block. -/
theorem roundtrip_BE (rks : List Nat) (h32 : rks.length = 32) (bs : List Nat)
    (hlen : bs.length = 16) (hb : ∀ x ∈ bs, x < 256) :
    sm4_block_decrypt (sm4_block_encrypt bs rks) rks = bs := by
  obtain ⟨b0, b1, b2, b3, b4, b5, b6, b7, b8, b9, b10, b11, b12, b13, b14, b15, rfl⟩ := exists_list16 bs hlen
  have h0 : b0 < 256 := hb b0 (by simp)
  have h1 : b1 < 256 := hb b1 (by simp)
  have h2 : b2 < 256 := hb b2 (by simp)
  have h3 : b3 < 256 := hb b3 (by simp)
  have h4 : b4 < 256 := hb b4 (by simp)
  have h5 : b5 < 256 := hb b5 (by simp)
  have h6 : b6 < 256 := hb b6 (by simp)
  have h7 : b7 < 256 := hb b7 (by simp)
  have h8 : b8 < 256 := hb b8 (by simp)
  have h9 : b9 < 256 := hb b9 (by simp)
  have h10 : b10 < 256 := hb b10 (by simp)
  have h11 : b11 < 256 := hb b11 (by simp)
  have h12 : b12 < 256 := hb b12 (by simp)
  have h13 : b13 < 256 := hb b13 (by simp)
  have h14 : b14 < 256 := hb b14 (by simp)
  have h15 : b15 < 256 := hb b15 (by simp)
  unfold sm4_block_decrypt sm4_block_encrypt
  rw [reversed_round_keys_eq rks h32]
  have hload : B32 (loadStateBE [b0, b1, b2, b3, b4, b5, b6, b7, b8, b9, b10, b11, b12, b13, b14, b15]) :=
    ⟨word_pack_lt _ _ _ _ h0 h1 h2 h3, word_pack_lt _ _ _ _ h4 h5 h6 h7,
     word_pack_lt _ _ _ _ h8 h9 h10 h11, word_pack_lt _ _ _ _ h12 h13 h14 h15⟩
  have hmid : B32 (rev4 (sm4Rounds nonlinear_transform rks (loadStateBE [b0, b1, b2, b3, b4, b5, b6, b7, b8, b9, b10, b11, b12, b13, b14, b15]))) :=
    rev4_B32 _ (sm4Rounds_B32 nonlinear_transform nonlinear_transform_lt rks _ hload)
  rw [loadStateBE_store _ hmid]
  rw [sm4Rounds_involution nonlinear_transform rks (loadStateBE [b0, b1, b2, b3, b4, b5, b6, b7, b8, b9, b10, b11, b12, b13, b14, b15])]
  exact storeStateBE_load b0 b1 b2 b3 b4 b5 b6 b7 b8 b9 b10 b11 b12 b13 b14 b15 h0 h1 h2 h3 h4 h5 h6 h7 h8 h9 h10 h11 h12 h13 h14 h15

/-- Round trip of the sm4_gcm.cpp `SM4` engine: for any 32 round keys,
`decryptBlock` undoes `encryptBlock` on every 16-byte block. -/
theorem roundtrip_LE (rks : List Nat) (h32 : rks.length = 32) (bs : List Nat)
    (hlen : bs.length = 16) (hb : ∀ x ∈ bs, x < 256) :
    SM4.decryptBlock rks (SM4.encryptBlock rks bs) = bs := by
  obtain ⟨b0, b1, b2, b3, b4, b5, b6, b7, b8, b9, b10, b11, b12, b13, b14, b15, rfl⟩ := exists_list16 bs hlen
  have h0 : b0 < 256 := hb b0 (by simp)
  have h1 : b1 < 256 := hb b1 (by simp)
  have h2 : b2 < 256 := hb b2 (by simp)
  have h3 : b3 < 256 := hb b3 (by simp)
  have h4 : b4 < 256 := hb b4 (by simp)
  have h5 : b5 < 256 := hb b5 (by simp)
  have h6 : b6 < 256 := hb b6 (by simp)
  have h7 : b7 < 256 := hb b7 (by simp)
  have h8 : b8 < 256 := hb b8 (by simp)
  have h9 : b9 < 256 := hb b9 (by simp)
  have h10 : b10 < 256 := hb b10 (by simp)
  have h11 : b11 < 256 := hb b11 (by simp)
  have h12 : b12 < 256 := hb b12 (by simp)
  have h13 : b13 < 256 := hb b13 (by simp)
  have h14 : b14 < 256 := hb b14 (by simp)
  have h15 : b15 < 256 := hb b15 (by simp)
  unfold SM4.decryptBlock SM4.encryptBlock
  rw [reversed_round_keys_eq rks h32]
  have hload : B32 (SM4.loadStateLE [b0, b1, b2, b3, b4, b5, b6, b7, b8, b9, b10, b11, b12, b13, b14, b15]) :=
    ⟨word_pack_lt _ _ _ _ h3 h2 h1 h0, word_pack_lt _ _ _ _ h7 h6 h5 h4,
     word_pack_lt _ _ _ _ h11 h10 h9 h8, word_pack_lt _ _ _ _ h15 h14 h13 h12⟩
  have hmid : B32 (rev4 (sm4Rounds (fun t => SM4.L (SM4.sbox t)) rks (SM4.loadStateLE [b0, b1, b2, b3, b4, b5, b6, b7, b8, b9, b10, b11, b12, b13, b14, b15]))) :=
    rev4_B32 _ (sm4Rounds_B32 _ sm4gcm_round_transform_lt rks _ hload)
  rw [loadStateLE_store _ hmid]
  rw [sm4Rounds_involution (fun t => SM4.L (SM4.sbox t)) rks (SM4.loadStateLE [b0, b1, b2, b3, b4, b5, b6, b7, b8, b9, b10, b11, b12, b13, b14, b15])]
  exact storeStateLE_load b0 b1 b2 b3 b4 b5 b6 b7 b8 b9 b10 b11 b12 b13 b14 b15 h0 h1 h2 h3 h4 h5 h6 h7 h8 h9 h10 h11 h12 h13 h14 h15

/-- C5: for every 128-bit key and every 16-byte block, decrypting the
encryption of the block under that key returns the block, in both the
part_002 / SM4Ttable.cpp scalar engine and the sm4_gcm.cpp `SM4` engine;
decryption is the same 32-round procedure run with the 32-entry subkey
sequence reversed, and the identity holds by the xor cancellation of the
round structure. -/
theorem claim_C5_decrypt_encrypt_roundtrip (key bs : List Nat)
    (hkey : key.length = 16) (hkb : ∀ x ∈ key, x < 256)
    (hlen : bs.length = 16) (hb : ∀ x ∈ bs, x < 256) :
    sm4_block_decrypt (sm4_block_encrypt bs (generate_round_keys key))
        (generate_round_keys key) = bs ∧
    SM4.decryptBlock (SM4.keyExpansion key)
        (SM4.encryptBlock (SM4.keyExpansion key) bs) = bs :=
  ⟨roundtrip_BE _ (generate_round_keys_length key) bs hlen hb,
   roundtrip_LE _ (keyExpansion_length key) bs hlen hb⟩

/-- C5 witness: the round-trip theorem applied to the all-zero key and the
all-zero block. -/
theorem claim_C5_roundtrip_witness :
    ((List.replicate 16 0 : List Nat).length = 16 ∧
      (∀ x ∈ (List.replicate 16 0 : List Nat), x < 256)) ∧
    (sm4_block_decrypt (sm4_block_encrypt (List.replicate 16 0)
          (generate_round_keys (List.replicate 16 0)))
        (generate_round_keys (List.replicate 16 0)) = List.replicate 16 0 ∧
      SM4.decryptBlock (SM4.keyExpansion (List.replicate 16 0))
        (SM4.encryptBlock (SM4.keyExpansion (List.replicate 16 0))
          (List.replicate 16 0)) = List.replicate 16 0) :=
  ⟨⟨by decide, by decide⟩,
   claim_C5_decrypt_encrypt_roundtrip (List.replicate 16 0) (List.replicate 16 0)
     (by decide) (by decide) (by decide) (by decide)⟩

/-- Writing every index of a 16-element buffer through a fold of point
updates yields the table of the written function. -/
theorem foldl_set16 (g : Nat → Nat)
    (x0 x1 x2 x3 x4 x5 x6 x7 x8 x9 x10 x11 x12 x13 x14 x15 : Nat) :
    (List.range 16).foldl (fun buf j => buf.set j (g j))
      [x0, x1, x2, x3, x4, x5, x6, x7, x8, x9, x10, x11, x12, x13, x14, x15] =
    (List.range 16).map g := rfl

/-- C9 counterexample: with requested tag length 1 and an all-zero caller
tag buffer, `encryptAndAuthenticate` writes byte 5 of the buffer (well past
index `t - 1 = 0`): the byte comes back 128, not the 0 the claim requires
it to keep. -/
theorem claim_C9_tag_bytes_beyond_len_written :
    ((SM4_GCM.encryptAndAuthenticate gcmTestState [] [] 1
        (List.replicate 16 0)).2.2).getD 5 0 = 128 ∧
    ((SM4_GCM.encryptAndAuthenticate gcmTestState [] [] 1
        (List.replicate 16 0)).2.2).getD 5 0 ≠ 0 := by
  decide

set_option maxHeartbeats 2000000

/-- C9 amended: for every requested tag length `t ≤ 16` and every 16-byte
caller buffer, `encryptAndAuthenticate` succeeds and overwrites the entire
16-byte tag buffer with `Encrypt(J0) ^ accumulator`, regardless of `t`; in
particular the first `t` bytes are the truncated tag, but the bytes beyond
index `t - 1` are written as well. -/
theorem claim_C9_full_tag_always_written (st : SM4_GCM.GCMState)
    (pt aad : List Nat) (t : Nat) (buf : List Nat)
    (ht : t ≤ 16) (hbuf : buf.length = 16) :
    (SM4_GCM.encryptAndAuthenticate st pt aad t buf).1 = true ∧
    (SM4_GCM.encryptAndAuthenticate st pt aad t buf).2.2 =
      SM4_GCM.gcmTagBytes st pt aad ∧
    ((SM4_GCM.encryptAndAuthenticate st pt aad t buf).2.2).take t =
      (SM4_GCM.gcmTagBytes st pt aad).take t := by
  have hne : ¬ 16 < t := by omega
  obtain ⟨x0, x1, x2, x3, x4, x5, x6, x7, x8, x9, x10, x11, x12, x13, x14, x15,
    rfl⟩ := exists_list16 buf hbuf
  unfold SM4_GCM.encryptAndAuthenticate
  rw [if_neg hne]
  have htag := foldl_set16
    (fun j => (SM4.encryptBlock st.rk st.j0).getD j 0 ^^^
      (SM4_GCM.ghashFn st (SM4_GCM.ghashInput aad (SM4_GCM.ctrCrypt st pt))).getD j 0)
    x0 x1 x2 x3 x4 x5 x6 x7 x8 x9 x10 x11 x12 x13 x14 x15
  exact ⟨rfl, htag, congrArg (List.take t) htag⟩

set_option maxHeartbeats 200000

/-- C9 witness: the amended theorem applied to the test state, the empty
message, tag length 4 and the all-zero tag buffer. -/
theorem claim_C9_full_tag_always_written_witness :
    ((4 ≤ 16) ∧ (List.replicate 16 0 : List Nat).length = 16) ∧
    ((SM4_GCM.encryptAndAuthenticate gcmTestState [] [] 4
        (List.replicate 16 0)).1 = true ∧
      (SM4_GCM.encryptAndAuthenticate gcmTestState [] [] 4
          (List.replicate 16 0)).2.2 = SM4_GCM.gcmTagBytes gcmTestState [] [] ∧
      ((SM4_GCM.encryptAndAuthenticate gcmTestState [] [] 4
          (List.replicate 16 0)).2.2).take 4 =
        (SM4_GCM.gcmTagBytes gcmTestState [] []).take 4) :=
  ⟨⟨by decide, by decide⟩,
   claim_C9_full_tag_always_written gcmTestState [] [] 4 (List.replicate 16 0)
     (by decide) (by decide)⟩

/-- C10: called with `tagLen = 0`, `decryptAndVerify` reports success for
every state, ciphertext, AAD and supplied tag: `memcmp` over zero bytes
compares nothing, so the zero-length tag always verifies. -/
theorem claim_C10_zero_taglen_always_verifies (st : SM4_GCM.GCMState)
    (ct aad tag : List Nat) :
    (SM4_GCM.decryptAndVerify st ct aad tag 0).2 = true := rfl
